import Mathlib

/-!
Verification development for the WhatsApp-link crawler (`streamlit_app.py`).

URLs, page bodies and messages are modelled as lists of characters
(`Str := List Char`).  The URL functions below are shallow embeddings of the
CPython `urllib.parse` routines (`urlparse`, `urlunparse`, `urljoin`) that the
crawler calls, restricted to total behaviour: the rarely-hit `ValueError`
paths of CPython (invalid IPv6 brackets, invalid netloc characters) are not
modelled, matching the crawler's own `try/except` guards which turn them into
`False`/`None`.  The HTTP transport and the HTML anchor extraction performed
by the `requests` and `BeautifulSoup` libraries are external collaborators
and enter the model as oracle functions in `CrawlConfig`.
-/

abbrev Str := List Char

/-- Characters allowed in a URL scheme, as in CPython `scheme_chars`
(ASCII letters, digits, `+`, `-`, `.`). -/
def schemeChar (c : Char) : Bool :=
  c.isAlphanum || c == '+' || c == '-' || c == '.'

/-- Split a leading `scheme:` from a URL, as in CPython `urlsplit`:
the text before the first `:` is a scheme when it is non-empty, starts with
an ASCII letter and consists of scheme characters only; the scheme is
lowercased.  Returns `(scheme, rest)`; scheme is `[]` when none was found
(and then the input is returned unchanged). -/
def splitScheme (l : Str) : Str × Str :=
  match l.dropWhile (fun c => c ≠ ':') with
  | [] => ([], l)
  | _ :: rest =>
    match l.takeWhile (fun c => c ≠ ':') with
    | [] => ([], l)
    | c :: cs =>
      if c.isAlpha ∧ (c :: cs).all schemeChar then ((c :: cs).map Char.toLower, rest)
      else ([], l)

/-- Character ending a netloc in CPython `_splitnetloc`. -/
def netlocEnd (c : Char) : Bool :=
  c == '/' || c == '?' || c == '#'

/-- Split a leading `//netloc` from the rest of the URL, as in CPython
`_splitnetloc`: only when the text starts with `//`; the netloc extends to
the first `/`, `?` or `#`. -/
def splitNetloc (l : Str) : Str × Str :=
  if l.take 2 = ['/', '/'] then
    ((l.drop 2).takeWhile (fun c => !netlocEnd c), (l.drop 2).dropWhile (fun c => !netlocEnd c))
  else ([], l)

/-- Split a trailing `#fragment` at the first `#`, as in CPython
`url.split('#', 1)`. -/
def splitFragment (l : Str) : Str × Str :=
  match l.dropWhile (fun c => c ≠ '#') with
  | [] => (l, [])
  | _ :: rest => (l.takeWhile (fun c => c ≠ '#'), rest)

/-- Split a trailing `?query` at the first `?`, as in CPython
`url.split('?', 1)`. -/
def splitQuery (l : Str) : Str × Str :=
  match l.dropWhile (fun c => c ≠ '?') with
  | [] => (l, [])
  | _ :: rest => (l.takeWhile (fun c => c ≠ '?'), rest)

/-- Split `;params` from the last path segment, as in CPython `_splitparams`:
the split point is the first `;` at or after the last `/` (or the first `;`
anywhere when the path has no `/`); no split when that segment has no `;`. -/
def splitParams (l : Str) : Str × Str :=
  match ((l.reverse.takeWhile (fun c => c ≠ '/')).reverse).dropWhile (fun c => c ≠ ';') with
  | [] => (l, [])
  | _ :: rest =>
    (l.take (l.length - ((l.reverse.takeWhile (fun c => c ≠ '/')).reverse).length) ++
      ((l.reverse.takeWhile (fun c => c ≠ '/')).reverse).takeWhile (fun c => c ≠ ';'), rest)

/-- The parsed components of a URL, as returned by CPython
`urllib.parse.urlparse`. -/
structure UrlParts where
  scheme : Str
  netloc : Str
  path : Str
  params : Str
  query : Str
  fragment : Str
deriving Repr, DecidableEq

/-- CPython `uses_params`. -/
def uses_params : List Str :=
  [[], "ftp".toList, "hdl".toList, "prospero".toList, "http".toList, "imap".toList,
   "https".toList, "shttp".toList, "rtsp".toList, "rtspu".toList, "sip".toList,
   "sips".toList, "mms".toList, "sftp".toList, "tel".toList]

/-- CPython `uses_relative`. -/
def uses_relative : List Str :=
  [[], "ftp".toList, "http".toList, "gopher".toList, "nntp".toList, "imap".toList,
   "wais".toList, "file".toList, "https".toList, "shttp".toList, "mms".toList,
   "prospero".toList, "rtsp".toList, "rtspu".toList, "sftp".toList, "svn".toList,
   "svn+ssh".toList, "ws".toList, "wss".toList]

/-- CPython `uses_netloc`. -/
def uses_netloc : List Str :=
  [[], "ftp".toList, "http".toList, "gopher".toList, "nntp".toList, "telnet".toList,
   "imap".toList, "wais".toList, "file".toList, "mms".toList, "https".toList,
   "shttp".toList, "snews".toList, "prospero".toList, "rtsp".toList, "rtspu".toList,
   "rsync".toList, "svn".toList, "svn+ssh".toList, "sftp".toList, "nfs".toList,
   "git".toList, "git+ssh".toList, "ws".toList, "wss".toList, "itms-services".toList]

/-- CPython `urlsplit(url, scheme=defScheme)` (with `allow_fragments=True`):
split off the scheme (falling back to the default), then `//netloc`, then the
fragment at the first `#`, then the query at the first `?`. -/
def urlsplitD (url defScheme : Str) : UrlParts :=
  let s1 := splitScheme url
  let scheme := if s1.1 = [] then defScheme else s1.1
  let s2 := splitNetloc s1.2
  let s3 := splitFragment s2.2
  let s4 := splitQuery s3.1
  ⟨scheme, s2.1, s4.1, [], s4.2, s3.2⟩

/-- CPython `urlparse(url, scheme=defScheme)`: `urlsplit` followed by the
`;params` split of the path, applied only for schemes in `uses_params`. -/
def urlparseD (url defScheme : Str) : UrlParts :=
  if (urlsplitD url defScheme).scheme ∈ uses_params ∧ ';' ∈ (urlsplitD url defScheme).path then
    ⟨(urlsplitD url defScheme).scheme, (urlsplitD url defScheme).netloc,
      (splitParams (urlsplitD url defScheme).path).1,
      (splitParams (urlsplitD url defScheme).path).2,
      (urlsplitD url defScheme).query, (urlsplitD url defScheme).fragment⟩
  else urlsplitD url defScheme

/-- First step of CPython `urlunparse`: rejoin `;params` to the path when
params are present. -/
def unparseParams (path params : Str) : Str :=
  if params ≠ [] then path ++ ';' :: params else path

/-- The netloc step of CPython `urlunsplit`: prefix `//netloc` (adding a `/`
before a relative path) when a netloc is present or the path begins `//`. -/
def unparseNetloc (netloc url0 : Str) : Str :=
  if netloc ≠ [] ∨ (url0 ≠ [] ∧ url0.take 2 = ['/', '/']) then
    '/' :: '/' :: (netloc ++ (if url0 ≠ [] ∧ url0.take 1 ≠ ['/'] then '/' :: url0 else url0))
  else url0

/-- The scheme step of CPython `urlunsplit`: prefix `scheme:` when present. -/
def unparseScheme (scheme url1 : Str) : Str :=
  if scheme ≠ [] then scheme ++ ':' :: url1 else url1

/-- CPython `urlunparse` / `SplitResult.geturl`: reassemble the URL string
from its components, appending `?query` and `#fragment` when non-empty. -/
def urlunparse (p : UrlParts) : Str :=
  if p.fragment ≠ [] then
    (if p.query ≠ [] then
        unparseScheme p.scheme (unparseNetloc p.netloc (unparseParams p.path p.params)) ++ '?' :: p.query
      else unparseScheme p.scheme (unparseNetloc p.netloc (unparseParams p.path p.params)))
      ++ '#' :: p.fragment
  else
    (if p.query ≠ [] then
      unparseScheme p.scheme (unparseNetloc p.netloc (unparseParams p.path p.params)) ++ '?' :: p.query
    else unparseScheme p.scheme (unparseNetloc p.netloc (unparseParams p.path p.params)))

/-- Keep the first and last elements, drop empty strings in between:
CPython `segments[1:-1] = filter(None, segments[1:-1])`. -/
def filterMiddle (segs : List Str) : List Str :=
  match segs with
  | [] => []
  | first :: rest =>
    first :: (rest.dropLast.filter (fun s => s ≠ [])) ++
      (match rest.getLast? with
       | some x => [x]
       | none => [])

/-- Resolve `.` and `..` path segments, as in the loop of CPython `urljoin`
(`pop` on an empty list is ignored). -/
def resolveSegments (segs : List Str) : List Str :=
  segs.foldl
    (fun acc seg =>
      if seg = ['.', '.'] then acc.dropLast
      else if seg = ['.'] then acc
      else acc ++ [seg])
    []

/-- CPython `urljoin(base, url)`: resolve `url` against `base`, handling
absolute URLs, protocol-relative URLs, relative paths and `.`/`..`
segments. -/
def urljoin (base url : Str) : Str :=
  if base = [] then url
  else if url = [] then base
  else
    let b := urlparseD base []
    let p := urlparseD url b.scheme
    if p.scheme ≠ b.scheme ∨ p.scheme ∉ uses_relative then url
    else if p.scheme ∈ uses_netloc ∧ p.netloc ≠ [] then urlunparse p
    else
      let netloc := if p.scheme ∈ uses_netloc then b.netloc else p.netloc
      if p.path = [] ∧ p.params = [] then
        urlunparse ⟨p.scheme, netloc, b.path, b.params,
          (if p.query = [] then b.query else p.query), p.fragment⟩
      else
        let baseParts0 := b.path.splitOn '/'
        let baseParts := if baseParts0.getLast? ≠ some [] then baseParts0.dropLast else baseParts0
        let segments :=
          if p.path.take 1 = ['/'] then p.path.splitOn '/'
          else filterMiddle (baseParts ++ p.path.splitOn '/')
        let resolved0 := resolveSegments segments
        let resolved :=
          if segments.getLast? = some ['.'] ∨ segments.getLast? = some ['.', '.'] then
            resolved0 ++ [[]]
          else resolved0
        let newPath := if List.intercalate ['/'] resolved = [] then ['/'] else List.intercalate ['/'] resolved
        urlunparse ⟨p.scheme, netloc, newPath, p.params, p.query, p.fragment⟩

/-- `is_valid_url` (streamlit_app.py:15): the URL parses with a non-empty
scheme and a non-empty netloc. -/
def is_valid_url (url : Str) : Bool :=
  let r := urlparseD url []
  r.scheme ≠ [] && r.netloc ≠ []

/-- `get_domain` (streamlit_app.py:23): the netloc component of the URL. -/
def get_domain (url : Str) : Str :=
  (urlparseD url []).netloc

/-- The fragment-and-query stripping of streamlit_app.py:106-107:
`urlparse(link)._replace(fragment="", query="").geturl()`. -/
def cleanUrl (l : Str) : Str :=
  urlunparse { urlparseD l [] with query := [], fragment := [] }

/-- The composite canonicalization applied to each discovered href
(streamlit_app.py:103-107): resolve against the current page URL, then strip
fragment and query. -/
def canonicalize (base href : Str) : Str :=
  cleanUrl (urljoin base href)

/-! ## Link extractor (`find_whatsapp_links`, streamlit_app.py:30-36) -/

/-- A character of a WhatsApp invite code: the regex class `[A-Za-z0-9\-_]`. -/
def isInviteChar (c : Char) : Bool :=
  (('A' ≤ c && c ≤ 'Z') || ('a' ≤ c && c ≤ 'z') || ('0' ≤ c && c ≤ '9') || c == '-' || c == '_')

/-- The two literal link prefixes matched by `https?://chat\.whatsapp\.com/`
(the optional `s` makes these the only two strings the prefix part of the
regex can match, and they are mutually exclusive at any one position). -/
def waPrefixS : Str := "https://chat.whatsapp.com/".toList

/-- See `waPrefixS`. -/
def waPrefixP : Str := "http://chat.whatsapp.com/".toList

/-- Match the regex `https?://chat\.whatsapp\.com/([A-Za-z0-9\-_]+)` at the
start of `l`: on success return the captured code (the maximal non-empty run
of invite characters after the prefix, as the greedy `+` captures it) and the
remainder of the text after the whole match. -/
def matchInviteAt (l : Str) : Option (Str × Str) :=
  if waPrefixS.isPrefixOf l then
    if (l.drop waPrefixS.length).takeWhile isInviteChar = [] then none
    else some ((l.drop waPrefixS.length).takeWhile isInviteChar,
      (l.drop waPrefixS.length).drop ((l.drop waPrefixS.length).takeWhile isInviteChar).length)
  else if waPrefixP.isPrefixOf l then
    if (l.drop waPrefixP.length).takeWhile isInviteChar = [] then none
    else some ((l.drop waPrefixP.length).takeWhile isInviteChar,
      (l.drop waPrefixP.length).drop ((l.drop waPrefixP.length).takeWhile isInviteChar).length)
  else none

/-- Left-to-right, non-overlapping scan of `re.findall`: try a match at every
position, and after a match resume immediately after it.  The fuel argument
(initialized to the text length, which bounds the number of steps since every
step consumes at least one character) makes the recursion structural. -/
def scanLinksAux : Nat → Str → List Str
  | 0, _ => []
  | _, [] => []
  | fuel + 1, c :: rest =>
    match matchInviteAt (c :: rest) with
    | some (code, after) => code :: scanLinksAux fuel after
    | none => scanLinksAux fuel rest

/-- All codes captured by `re.findall(pattern, text)`, in match order. -/
def scanLinks (l : Str) : List Str :=
  scanLinksAux l.length l

/-- `find_whatsapp_links` (streamlit_app.py:30-36):
`set(re.findall(r"https?://chat\.whatsapp\.com/([A-Za-z0-9\-_]+)", text))`. -/
def find_whatsapp_links (page_content : Str) : Finset Str :=
  (scanLinks page_content).toFinset

/-- The full-link reconstruction of streamlit_app.py:96:
`f"https://chat.whatsapp.com/{link}"`. -/
def waReconstruct (code : Str) : Str :=
  "https://chat.whatsapp.com/".toList ++ code

/-! ## Crawl engine (`crawl_website`, streamlit_app.py:38-119) -/

/-- Outcome of one `requests.get` call, classified the way the crawler's
`try/except` blocks observe it: a 2xx response with its body text and
content-type header, an HTTP error status (`raise_for_status`), or a
transport-level failure.  Both error variants carry the exception's message
text, which is produced by the external `requests` library. -/
inductive FetchOutcome where
  | success (body : Str) (contentType : Str)
  | httpError (code : Nat) (msg : Str)
  | networkError (msg : Str)
deriving Repr, DecidableEq

/-- An event sent to the Streamlit UI (`status_text` / `progress_bar`).
The numeric fraction passed to `progress_bar.progress` is floating-point
telemetry and is not modelled; only the fact that an update happened is. -/
inductive Event where
  | info (msg : Str)
  | warning (msg : Str)
  | error (msg : Str)
  | progress
deriving Repr, DecidableEq

/-- Inputs of one crawl: the start URL and depth bound given by the user, and
the two external collaborators as oracles — `fetch` abstracts
`requests.get` (plus `raise_for_status` and the content-type header read) and
`anchorsOf` abstracts `BeautifulSoup(body).find_all('a', href=True)`,
returning the href attribute values in document order. -/
structure CrawlConfig where
  start_url : Str
  max_depth : Nat
  fetch : Str → FetchOutcome
  anchorsOf : Str → List Str

/-- The mutable state of `crawl_website`.  `queue`, `visited`, `found`,
`pages_crawled` and `processed` are the program's variables
(streamlit_app.py:53-60); `events` is the chronological record of UI calls;
`fetchLog`, `enqueueLog` and `popped` are observation-only histories (URLs
passed to `requests.get`, entries appended to the queue inside the loop, and
entries dequeued by `popleft`, each in chronological order) — the step
function never reads them. -/
structure CrawlState where
  queue : List (Str × Nat)
  visited : Finset Str
  found : Finset Str
  pages_crawled : Nat
  processed : Nat
  events : List Event
  fetchLog : List Str
  enqueueLog : List (Str × Nat)
  popped : List (Str × Nat)
deriving DecidableEq

/-- Message of streamlit_app.py:44. -/
def invalidMsg (u : Str) : Str := "Invalid starting URL: ".toList ++ u

/-- Message of streamlit_app.py:49. -/
def noDomainMsg (u : Str) : Str := "Could not determine domain for URL: ".toList ++ u

/-- Message of streamlit_app.py:69. -/
def crawlingMsg (d : Nat) (u : Str) : Str :=
  "Crawling (Depth ".toList ++ (Nat.repr d).toList ++ "): ".toList ++ u

/-- Message of streamlit_app.py:114 (the exception text comes from the
`requests` library). -/
def failMsg (u e : Str) : Str := "Failed to fetch ".toList ++ u ++ ": ".toList ++ e

/-- Message of streamlit_app.py:88 (printed with the already-lowercased
content type). -/
def skipMsg (u ct : Str) : Str :=
  "Skipping non-HTML content at ".toList ++ u ++ " (type: ".toList ++ ct ++ ")".toList

/-- The content-type gate of streamlit_app.py:86-87:
`'text/html' in content_type` on the lowercased header value
(substring containment). -/
def htmlOk (ctypeLower : Str) : Bool :=
  decide ("text/html".toList <:+: ctypeLower)

/-- The link-discovery loop of streamlit_app.py:101-111: for each href, in
order, resolve it against the current URL, strip fragment and query, and keep
it (at depth d+1) when it is valid, on the start domain, and not yet
visited.  `visited` is not modified inside this loop, so the filter is
against a fixed set. -/
def expandLinks (dom : Str) (visited : Finset Str) (current_url : Str)
    (hrefs : List Str) (d : Nat) : List (Str × Nat) :=
  hrefs.filterMap (fun href =>
    let clean := cleanUrl (urljoin current_url href)
    if is_valid_url clean ∧ get_domain clean = dom ∧ clean ∉ visited then
      some (clean, d + 1)
    else none)

/-- One iteration of the `while queue` loop (streamlit_app.py:62-116) for the
dequeued entry `(u, d)`; the state `st` passed in already has the entry
removed from `queue` (and recorded in `popped`), so `st.queue` is the queue
as the body sees it after `popleft`. -/
def processEntry (cfg : CrawlConfig) (dom : Str) (u : Str) (d : Nat)
    (st : CrawlState) : CrawlState :=
  if u ∈ st.visited ∨ d > cfg.max_depth then st
  else
    let st1 : CrawlState := { st with
      visited := insert u st.visited,
      events := st.events ++ [Event.info (crawlingMsg d u)],
      pages_crawled := st.pages_crawled + 1,
      processed := st.processed + 1 }
    let st2 : CrawlState :=
      if (st.processed + 1) % 5 = 0 ∨ st.queue.length = 0 then
        { st1 with events := st1.events ++ [Event.progress] }
      else st1
    let st3 : CrawlState := { st2 with fetchLog := st2.fetchLog ++ [u] }
    match cfg.fetch u with
    | FetchOutcome.networkError m =>
      { st3 with events := st3.events ++ [Event.warning (failMsg u m)] }
    | FetchOutcome.httpError _ m =>
      { st3 with events := st3.events ++ [Event.warning (failMsg u m)] }
    | FetchOutcome.success body ctype =>
      let ctypeL := ctype.map Char.toLower
      if ¬ htmlOk ctypeL then
        { st3 with events := st3.events ++ [Event.warning (skipMsg u ctypeL)] }
      else
        let st4 : CrawlState :=
          { st3 with found := st3.found ∪ (find_whatsapp_links body).image waReconstruct }
        if d < cfg.max_depth then
          let newEntries := expandLinks dom st4.visited u (cfg.anchorsOf body) d
          { st4 with queue := st4.queue ++ newEntries,
                     enqueueLog := st4.enqueueLog ++ newEntries }
        else st4

/-- One turn of the `while queue:` loop: when the queue is non-empty,
`popleft` the front entry (recording it in `popped`) and run the loop body on
it; when the queue is empty the state is unchanged (the loop has exited). -/
def crawlStep (cfg : CrawlConfig) (dom : Str) (st : CrawlState) : CrawlState :=
  match st.queue with
  | [] => st
  | (u, d) :: rest =>
    processEntry cfg dom u d { st with queue := rest, popped := st.popped ++ [(u, d)] }

/-- The `while queue:` loop, fuel-indexed: one unit of fuel per turn.  Any
fuel at least the number of iterations the loop actually performs yields the
loop's final state, since `crawlStep` is the identity once the queue is empty
(and the loop does terminate: every enqueued entry has depth at most
`max_depth` and each page contributes finitely many entries). -/
def crawlLoop (cfg : CrawlConfig) (dom : Str) : Nat → CrawlState → CrawlState
  | 0, st => st
  | fuel + 1, st => crawlLoop cfg dom fuel (crawlStep cfg dom st)

/-- The state at streamlit_app.py:53-60: frontier holding only the start URL
at depth 0, everything else empty. -/
def initState (start : Str) : CrawlState :=
  { queue := [(start, 0)], visited := ∅, found := ∅, pages_crawled := 0,
    processed := 0, events := [], fetchLog := [], enqueueLog := [], popped := [] }

/-- A state representing the early-return paths of streamlit_app.py:43-50:
`return set(), 0` after an error message, with nothing else done. -/
def errorState (msg : Str) : CrawlState :=
  { queue := [], visited := ∅, found := ∅, pages_crawled := 0,
    processed := 0, events := [Event.error msg], fetchLog := [], enqueueLog := [],
    popped := [] }

/-- `crawl_website` (streamlit_app.py:38-119).  The returned value in the
source is the pair `(found_whatsapp_links, pages_crawled)`; the model returns
the whole final state, of which that pair is the `found` and `pages_crawled`
fields.  `fuel` bounds the number of loop iterations; any sufficiently large
value gives the true final state (its queue is then empty). -/
def crawl_website (cfg : CrawlConfig) (fuel : Nat) : CrawlState :=
  if ¬ is_valid_url cfg.start_url then errorState (invalidMsg cfg.start_url)
  else
    let dom := get_domain cfg.start_url
    if dom = [] then errorState (noDomainMsg cfg.start_url)
    else
      let final := crawlLoop cfg dom fuel (initState cfg.start_url)
      { final with events := final.events ++ [Event.progress] }

/-! ## Basic lemmas about the loop -/

theorem crawlLoop_of_queue_nil (cfg : CrawlConfig) (dom : Str) (fuel : Nat)
    (st : CrawlState) (h : st.queue = []) : crawlLoop cfg dom fuel st = st := by
  induction fuel with
  | zero => rfl
  | succ n ih =>
    have hstep : crawlStep cfg dom st = st := by
      unfold crawlStep
      rw [h]
    unfold crawlLoop
    rw [hstep]
    exact ih

theorem crawlStep_of_queue_cons (cfg : CrawlConfig) (dom : Str) (st : CrawlState)
    (u : Str) (d : Nat) (rest : List (Str × Nat)) (h : st.queue = (u, d) :: rest) :
    crawlStep cfg dom st =
      processEntry cfg dom u d { st with queue := rest, popped := st.popped ++ [(u, d)] } := by
  unfold crawlStep
  rw [h]

theorem crawlStep_of_queue_nil (cfg : CrawlConfig) (dom : Str) (st : CrawlState)
    (h : st.queue = []) : crawlStep cfg dom st = st := by
  unfold crawlStep
  rw [h]

/-- Preservation through every loop turn lifts an invariant to the whole
fuel-indexed loop. -/
theorem crawlLoop_inv (cfg : CrawlConfig) (dom : Str) (P : CrawlState → Prop)
    (hstep : ∀ st, P st → P (crawlStep cfg dom st)) (fuel : Nat) (st : CrawlState)
    (h : P st) : P (crawlLoop cfg dom fuel st) := by
  induction fuel generalizing st with
  | zero => exact h
  | succ n ih =>
    unfold crawlLoop
    exact ih _ (hstep st h)

/-- The skip branch (streamlit_app.py:65-66): an already-visited or too-deep
entry leaves the state unchanged. -/
theorem processEntry_skip (cfg : CrawlConfig) (dom : Str) (u : Str) (d : Nat)
    (st : CrawlState) (h : u ∈ st.visited ∨ d > cfg.max_depth) :
    processEntry cfg dom u d st = st := by
  unfold processEntry
  rw [if_pos h]

/-- In the visit branch, the fields common to every fetch outcome:
the URL is marked visited, counted, and passed to `requests.get`. -/
theorem processEntry_visit_common (cfg : CrawlConfig) (dom : Str) (u : Str) (d : Nat)
    (st : CrawlState) (h : ¬(u ∈ st.visited ∨ d > cfg.max_depth)) :
    (processEntry cfg dom u d st).visited = insert u st.visited ∧
    (processEntry cfg dom u d st).pages_crawled = st.pages_crawled + 1 ∧
    (processEntry cfg dom u d st).fetchLog = st.fetchLog ++ [u] ∧
    (processEntry cfg dom u d st).popped = st.popped ∧
    (processEntry cfg dom u d st).processed = st.processed + 1 := by
  unfold processEntry
  rw [if_neg h]
  cases hf : cfg.fetch u with
  | networkError m => split <;> simp
  | httpError c m => split <;> simp
  | success body ctype =>
    by_cases hh : htmlOk (ctype.map Char.toLower)
    · by_cases hd : d < cfg.max_depth <;> simp [hh, hd] <;> split <;> simp
    · simp [hh] <;> split <;> simp

/-- In the visit branch, the queue and the enqueue log grow by the same list
of new entries, and that list is empty unless the fetch succeeded with an
HTML body and the depth allows expansion, in which case it is exactly the
filtered link expansion of the page. -/
theorem processEntry_visit_queue (cfg : CrawlConfig) (dom : Str) (u : Str) (d : Nat)
    (st : CrawlState) (h : ¬(u ∈ st.visited ∨ d > cfg.max_depth)) :
    ∃ new : List (Str × Nat),
      (processEntry cfg dom u d st).queue = st.queue ++ new ∧
      (processEntry cfg dom u d st).enqueueLog = st.enqueueLog ++ new ∧
      (new = [] ∨
        (∃ body ctype, cfg.fetch u = FetchOutcome.success body ctype ∧
          htmlOk (ctype.map Char.toLower) = true ∧ d < cfg.max_depth ∧
          new = expandLinks dom (insert u st.visited) u (cfg.anchorsOf body) d)) := by
  unfold processEntry
  rw [if_neg h]
  cases hf : cfg.fetch u with
  | networkError m => exact ⟨[], by split <;> simp⟩
  | httpError c m => exact ⟨[], by split <;> simp⟩
  | success body ctype =>
    by_cases hh : htmlOk (ctype.map Char.toLower)
    · by_cases hd : d < cfg.max_depth
      · refine ⟨expandLinks dom (insert u st.visited) u (cfg.anchorsOf body) d, ?_, ?_, ?_⟩
        · simp [hh, hd] <;> split <;> simp
        · simp [hh, hd] <;> split <;> simp
        · exact Or.inr ⟨body, ctype, rfl, hh, hd, rfl⟩
      · exact ⟨[], by simp [hh, hd] <;> split <;> simp⟩
    · exact ⟨[], by simp [hh] <;> split <;> simp⟩

/-- In the visit branch, the accumulator of discovered links grows only by
reconstructed invite codes extracted from a successfully fetched HTML body. -/
theorem processEntry_visit_found (cfg : CrawlConfig) (dom : Str) (u : Str) (d : Nat)
    (st : CrawlState) (h : ¬(u ∈ st.visited ∨ d > cfg.max_depth)) :
    (processEntry cfg dom u d st).found = st.found ∨
    (∃ body ctype, cfg.fetch u = FetchOutcome.success body ctype ∧
      htmlOk (ctype.map Char.toLower) = true ∧
      (processEntry cfg dom u d st).found =
        st.found ∪ (find_whatsapp_links body).image waReconstruct) := by
  unfold processEntry
  rw [if_neg h]
  cases hf : cfg.fetch u with
  | networkError m => exact Or.inl (by split <;> simp)
  | httpError c m => exact Or.inl (by split <;> simp)
  | success body ctype =>
    by_cases hh : htmlOk (ctype.map Char.toLower)
    · by_cases hd : d < cfg.max_depth
      · exact Or.inr ⟨body, ctype, rfl, hh, by simp [hh, hd] <;> split <;> simp⟩
      · exact Or.inr ⟨body, ctype, rfl, hh, by simp [hh, hd] <;> split <;> simp⟩
    · exact Or.inl (by simp [hh] <;> split <;> simp)

/-- Membership in the link expansion (streamlit_app.py:110-111): every kept
entry sits at depth `d + 1`, passed the validity and same-domain filters, was
not yet visited, and is the canonicalized resolution of some href of the
page. -/
theorem expandLinks_mem (dom : Str) (V : Finset Str) (u : Str) (hrefs : List Str)
    (d : Nat) (e : Str × Nat) (h : e ∈ expandLinks dom V u hrefs d) :
    e.2 = d + 1 ∧ is_valid_url e.1 = true ∧ get_domain e.1 = dom ∧ e.1 ∉ V ∧
      ∃ href ∈ hrefs, e.1 = cleanUrl (urljoin u href) := by
  unfold expandLinks at h
  rw [List.mem_filterMap] at h
  obtain ⟨href, hmem, hkeep⟩ := h
  by_cases hc : is_valid_url (cleanUrl (urljoin u href)) = true ∧
      get_domain (cleanUrl (urljoin u href)) = dom ∧ cleanUrl (urljoin u href) ∉ V
  · rw [if_pos hc] at hkeep
    obtain ⟨h1, h2, h3⟩ := hc
    cases hkeep
    exact ⟨rfl, h1, h2, h3, href, hmem, rfl⟩
  · rw [if_neg hc] at hkeep
    cases hkeep

/-! ## Invariants of the loop -/

/-- `pages_crawled` always equals the number of visited URLs: both are
updated together and only for fresh URLs (streamlit_app.py:68-70). -/
theorem crawlStep_pages_card (cfg : CrawlConfig) (dom : Str) (st : CrawlState)
    (h : st.pages_crawled = st.visited.card) :
    (crawlStep cfg dom st).pages_crawled = (crawlStep cfg dom st).visited.card := by
  cases hq : st.queue with
  | nil =>
    rw [crawlStep_of_queue_nil cfg dom st hq]
    exact h
  | cons e rest =>
    obtain ⟨u, d⟩ := e
    rw [crawlStep_of_queue_cons cfg dom st u d rest hq]
    by_cases hv : u ∈ st.visited ∨ d > cfg.max_depth
    · rw [processEntry_skip cfg dom u d { st with queue := rest, popped := st.popped ++ [(u, d)] } hv]
      exact h
    · obtain ⟨h1, h2, -, -, -⟩ :=
        processEntry_visit_common cfg dom u d
          { st with queue := rest, popped := st.popped ++ [(u, d)] } hv
      rw [h1, h2]
      push_neg at hv
      rw [show ({ st with queue := rest, popped := st.popped ++ [(u, d)] } : CrawlState).visited
            = st.visited from rfl,
          Finset.card_insert_of_not_mem hv.1]
      exact congrArg Nat.succ h

/-- Fetched URLs are never refetched: the fetch log stays duplicate-free and
inside the visited set. -/
theorem crawlStep_fetchLog_nodup (cfg : CrawlConfig) (dom : Str) (st : CrawlState)
    (h : st.fetchLog.Nodup ∧ ∀ u ∈ st.fetchLog, u ∈ st.visited) :
    (crawlStep cfg dom st).fetchLog.Nodup ∧
      ∀ u ∈ (crawlStep cfg dom st).fetchLog, u ∈ (crawlStep cfg dom st).visited := by
  cases hq : st.queue with
  | nil =>
    rw [crawlStep_of_queue_nil cfg dom st hq]
    exact h
  | cons e rest =>
    obtain ⟨u, d⟩ := e
    rw [crawlStep_of_queue_cons cfg dom st u d rest hq]
    by_cases hv : u ∈ st.visited ∨ d > cfg.max_depth
    · rw [processEntry_skip cfg dom u d { st with queue := rest, popped := st.popped ++ [(u, d)] } hv]
      exact h
    · obtain ⟨h1, -, h3, -, -⟩ :=
        processEntry_visit_common cfg dom u d
          { st with queue := rest, popped := st.popped ++ [(u, d)] } hv
      rw [h1, h3]
      push_neg at hv
      have hnotin : u ∉ st.fetchLog := fun hmem => hv.1 (h.2 u hmem)
      constructor
      · exact List.Nodup.append h.1 (List.nodup_singleton u)
          (List.disjoint_singleton.mpr hnotin)
      · intro x hx
        rcases List.mem_append.mp hx with hx | hx
        · exact Finset.mem_insert_of_mem (h.2 x hx)
        · rw [List.mem_singleton.mp hx]
          exact Finset.mem_insert_self u st.visited

/-- Same-domain scoping: all queue entries, all enqueued entries and all
fetched URLs lie on `dom` (the guard of streamlit_app.py:110). -/
theorem crawlStep_domain (cfg : CrawlConfig) (dom : Str) (st : CrawlState)
    (h : (∀ p ∈ st.queue, get_domain p.1 = dom) ∧
         (∀ p ∈ st.enqueueLog, get_domain p.1 = dom) ∧
         (∀ u ∈ st.fetchLog, get_domain u = dom)) :
    (∀ p ∈ (crawlStep cfg dom st).queue, get_domain p.1 = dom) ∧
    (∀ p ∈ (crawlStep cfg dom st).enqueueLog, get_domain p.1 = dom) ∧
    (∀ u ∈ (crawlStep cfg dom st).fetchLog, get_domain u = dom) := by
  obtain ⟨hQ, hE, hF⟩ := h
  cases hq : st.queue with
  | nil =>
    rw [crawlStep_of_queue_nil cfg dom st hq]
    exact ⟨hQ, hE, hF⟩
  | cons e rest =>
    obtain ⟨u, d⟩ := e
    rw [crawlStep_of_queue_cons cfg dom st u d rest hq]
    have hrest : ∀ p ∈ rest, get_domain p.1 = dom := fun p hp =>
      hQ p (hq ▸ List.mem_cons_of_mem _ hp)
    have hu : get_domain u = dom := hQ (u, d) (hq ▸ List.mem_cons_self _ _)
    by_cases hv : u ∈ st.visited ∨ d > cfg.max_depth
    · rw [processEntry_skip cfg dom u d { st with queue := rest, popped := st.popped ++ [(u, d)] } hv]
      exact ⟨hrest, hE, hF⟩
    · obtain ⟨-, -, h3, -, -⟩ :=
        processEntry_visit_common cfg dom u d
          { st with queue := rest, popped := st.popped ++ [(u, d)] } hv
      obtain ⟨new, hq', he', hnew⟩ :=
        processEntry_visit_queue cfg dom u d
          { st with queue := rest, popped := st.popped ++ [(u, d)] } hv
      have hnewdom : ∀ p ∈ new, get_domain p.1 = dom := by
        rcases hnew with rfl | ⟨body, ctype, -, -, -, rfl⟩
        · intro p hp
          cases hp
        · intro p hp
          exact (expandLinks_mem _ _ _ _ _ _ hp).2.2.1
      refine ⟨?_, ?_, ?_⟩
      · rw [hq']
        intro p hp
        rcases List.mem_append.mp hp with hp | hp
        · exact hrest p hp
        · exact hnewdom p hp
      · rw [he']
        intro p hp
        rcases List.mem_append.mp hp with hp | hp
        · exact hE p hp
        · exact hnewdom p hp
      · rw [h3]
        intro x hx
        rcases List.mem_append.mp hx with hx | hx
        · exact hF x hx
        · rw [List.mem_singleton.mp hx]
          exact hu

theorem sorted_of_all_eq (l : List Nat) (a : Nat) (h : ∀ x ∈ l, x = a) :
    l.Sorted (· ≤ ·) := by
  induction l with
  | nil => exact List.sorted_nil
  | cons x xs ih =>
    rw [List.sorted_cons]
    refine ⟨fun b hb => ?_, ih fun x hx => h x (List.mem_cons_of_mem _ hx)⟩
    rw [h x (List.mem_cons_self _ _), h b (List.mem_cons_of_mem _ hb)]

/-- The breadth-first shape of the traversal: the depths of the dequeued
entries followed by the depths still in the queue form a non-decreasing
sequence, and any two queue entries are within one depth level of each
other.  Preserved by every loop turn, since expansion appends entries at
depth `d + 1` where `d` is the depth just dequeued. -/
theorem crawlStep_depths (cfg : CrawlConfig) (dom : Str) (st : CrawlState)
    (h : List.Sorted (· ≤ ·) ((st.popped ++ st.queue).map Prod.snd) ∧
         ∀ p ∈ st.queue, ∀ q ∈ st.queue, p.2 ≤ q.2 + 1) :
    List.Sorted (· ≤ ·) (((crawlStep cfg dom st).popped ++ (crawlStep cfg dom st).queue).map Prod.snd) ∧
      ∀ p ∈ (crawlStep cfg dom st).queue, ∀ q ∈ (crawlStep cfg dom st).queue, p.2 ≤ q.2 + 1 := by
  obtain ⟨hS, hB⟩ := h
  cases hq : st.queue with
  | nil =>
    rw [crawlStep_of_queue_nil cfg dom st hq]
    exact ⟨hS, hB⟩
  | cons e rest =>
    obtain ⟨u, d⟩ := e
    rw [crawlStep_of_queue_cons cfg dom st u d rest hq]
    have hS0 : List.Sorted (· ≤ ·) (st.popped.map Prod.snd ++ (d :: rest.map Prod.snd)) := by
      rw [hq] at hS
      simpa using hS
    obtain ⟨hpopS, hdr, hcross⟩ := List.pairwise_append.mp hS0
    obtain ⟨hd_le, hrestS⟩ := List.sorted_cons.mp hdr
    have hd_le' : ∀ q ∈ rest, d ≤ q.2 := fun q hqm =>
      hd_le q.2 (List.mem_map_of_mem Prod.snd hqm)
    by_cases hv : u ∈ st.visited ∨ d > cfg.max_depth
    · rw [processEntry_skip cfg dom u d { st with queue := rest, popped := st.popped ++ [(u, d)] } hv]
      constructor
      · show List.Sorted (· ≤ ·) (((st.popped ++ [(u, d)]) ++ rest).map Prod.snd)
        simpa [List.append_assoc] using hS0
      · intro p hp q hqm
        exact hB p (hq ▸ List.mem_cons_of_mem _ hp) q (hq ▸ List.mem_cons_of_mem _ hqm)
    · obtain ⟨-, -, -, h4, -⟩ :=
        processEntry_visit_common cfg dom u d
          { st with queue := rest, popped := st.popped ++ [(u, d)] } hv
      obtain ⟨new, hq', he', hnew⟩ :=
        processEntry_visit_queue cfg dom u d
          { st with queue := rest, popped := st.popped ++ [(u, d)] } hv
      have hnewd : ∀ p ∈ new, p.2 = d + 1 := by
        rcases hnew with rfl | ⟨body, ctype, -, -, -, rfl⟩
        · intro p hp
          cases hp
        · intro p hp
          exact (expandLinks_mem _ _ _ _ _ _ hp).1
      -- every depth already in the combined list is at most d + 1
      have hall : ∀ x ∈ st.popped.map Prod.snd ++ (d :: rest.map Prod.snd), x ≤ d + 1 := by
        intro x hx
        rcases List.mem_append.mp hx with hx | hx
        · exact le_trans (hcross x hx d (List.mem_cons_self _ _)) (Nat.le_succ d)
        · rcases List.mem_cons.mp hx with hx0 | hx
          · rw [hx0]
            exact Nat.le_succ d
          · obtain ⟨q, hqm, rfl⟩ := List.mem_map.mp hx
            exact hB q (hq ▸ List.mem_cons_of_mem _ hqm) (u, d) (hq ▸ List.mem_cons_self _ _)
      rw [h4, hq']
      constructor
      · show List.Sorted (· ≤ ·) (((st.popped ++ [(u, d)]) ++ (rest ++ new)).map Prod.snd)
        have : ((st.popped ++ [(u, d)]) ++ (rest ++ new)).map Prod.snd =
            (st.popped.map Prod.snd ++ (d :: rest.map Prod.snd)) ++ new.map Prod.snd := by
          simp [List.append_assoc]
        rw [this]
        refine List.pairwise_append.mpr ⟨hS0, ?_, ?_⟩
        · refine sorted_of_all_eq _ (d + 1) fun x hx => ?_
          obtain ⟨p, hp, rfl⟩ := List.mem_map.mp hx
          exact hnewd p hp
        · intro x hx y hy
          obtain ⟨p, hp, rfl⟩ := List.mem_map.mp hy
          rw [hnewd p hp]
          exact hall x hx
      · intro p hp q hqm
        rcases List.mem_append.mp hp with hp | hp <;> rcases List.mem_append.mp hqm with hqm | hqm
        · exact hB p (hq ▸ List.mem_cons_of_mem _ hp) q (hq ▸ List.mem_cons_of_mem _ hqm)
        · rw [hnewd q hqm]
          exact le_trans (hB p (hq ▸ List.mem_cons_of_mem _ hp) (u, d) (hq ▸ List.mem_cons_self _ _))
            (Nat.le_succ _)
        · rw [hnewd p hp]
          exact Nat.succ_le_succ (hd_le' q hqm)
        · rw [hnewd p hp, hnewd q hqm]
          exact Nat.le_succ _

/-- Lift a loop invariant to the whole of `crawl_website`: it must hold for
the two early-error states, for the initial state, be preserved by every loop
turn, and be insensitive to appending UI events (for the final progress-bar
update). -/
theorem crawl_website_spec (cfg : CrawlConfig) (fuel : Nat) (P : CrawlState → Prop)
    (hev : ∀ st e, P st → P { st with events := st.events ++ e })
    (herr : ∀ msg, P (errorState msg))
    (hinit : P (initState cfg.start_url))
    (hstep : ∀ st, P st → P (crawlStep cfg (get_domain cfg.start_url) st)) :
    P (crawl_website cfg fuel) := by
  unfold crawl_website
  split
  · exact herr _
  · dsimp only
    split
    · exact herr _
    · exact hev _ _ (crawlLoop_inv cfg (get_domain cfg.start_url) P hstep fuel _ hinit)

/-! ## Claim theorems -/

/-- C10: at every point of every crawl — in particular at its end —
`pagesCrawled` equals the number of distinct URLs in the visited set: it
counts every dequeued, not-previously-visited URL exactly once, including
those whose fetch later failed or was skipped as non-HTML (the counter and
the set are updated together, before the fetch). -/
theorem claim_C10_pages_crawled_eq_visited_card (cfg : CrawlConfig) (fuel : Nat) :
    (crawl_website cfg fuel).pages_crawled = (crawl_website cfg fuel).visited.card := by
  exact crawl_website_spec cfg fuel (fun st => st.pages_crawled = st.visited.card)
    (fun st e h => h)
    (fun msg => by simp [errorState])
    (by simp [initState])
    (fun st h => crawlStep_pages_card cfg (get_domain cfg.start_url) st h)

/-- C1 (amended): every URL is fetched at most once per crawl — the list of
URLs passed to `requests.get`, in order, never repeats a URL (a URL already
in the visited set is discarded at dequeue time, before fetching). -/
theorem claim_C1_amended_fetch_at_most_once (cfg : CrawlConfig) (fuel : Nat) :
    (crawl_website cfg fuel).fetchLog.Nodup := by
  exact (crawl_website_spec cfg fuel
      (fun st => st.fetchLog.Nodup ∧ ∀ u ∈ st.fetchLog, u ∈ st.visited)
      (fun st e h => h)
      (fun msg => by simp [errorState])
      (by simp [initState])
      (fun st h => crawlStep_fetchLog_nodup cfg (get_domain cfg.start_url) st h)).1

/-- C2: every URL appended to the frontier after initialization has a domain
exactly equal to the start URL's domain (exact host equality), and every URL
ever fetched — the start URL included — is on that domain, so no URL outside
the starting domain is ever fetched. -/
theorem claim_C2_same_domain (cfg : CrawlConfig) (fuel : Nat) :
    (∀ p ∈ (crawl_website cfg fuel).enqueueLog, get_domain p.1 = get_domain cfg.start_url) ∧
    (∀ u ∈ (crawl_website cfg fuel).fetchLog, get_domain u = get_domain cfg.start_url) := by
  have h := crawl_website_spec cfg fuel
    (fun st => (∀ p ∈ st.queue, get_domain p.1 = get_domain cfg.start_url) ∧
      (∀ p ∈ st.enqueueLog, get_domain p.1 = get_domain cfg.start_url) ∧
      (∀ u ∈ st.fetchLog, get_domain u = get_domain cfg.start_url))
    (fun st e h => h)
    (fun msg => by simp [errorState])
    (by simp [initState])
    (fun st h => crawlStep_domain cfg (get_domain cfg.start_url) st h)
  exact ⟨h.2.1, h.2.2⟩

/-- C4: the traversal is breadth-first FIFO — the depths of the dequeued
entries, in dequeue order, form a non-decreasing sequence, so all entries at
depth d are dequeued before any entry at depth d+1. -/
theorem claim_C4_bfs_depths_monotone (cfg : CrawlConfig) (fuel : Nat) :
    List.Sorted (· ≤ ·) ((crawl_website cfg fuel).popped.map Prod.snd) := by
  have h := crawl_website_spec cfg fuel
    (fun st => List.Sorted (· ≤ ·) ((st.popped ++ st.queue).map Prod.snd) ∧
      ∀ p ∈ st.queue, ∀ q ∈ st.queue, p.2 ≤ q.2 + 1)
    (fun st e h => h)
    (fun msg => by simp [errorState])
    (by simp [initState])
    (fun st h => crawlStep_depths cfg (get_domain cfg.start_url) st h)
  have h1 := h.1
  rw [List.map_append] at h1
  exact (List.pairwise_append.mp h1).1

/-! ## A concrete example site

The start page `https://example.com` is HTML and carries two anchors to the
same relative target `/page2` plus one off-domain anchor; `/page2` itself
fails to fetch.  This is the crawl used for concrete witnesses and
counterexamples below. -/

def exBody : Str := "b0".toList

def exStart : Str := "https://example.com".toList

def exP2 : Str := "https://example.com/page2".toList

def exCfg : CrawlConfig :=
  { start_url := exStart
    max_depth := 1
    fetch := fun u =>
      if u = exStart then FetchOutcome.success exBody "text/html; charset=utf-8".toList
      else FetchOutcome.networkError "timeout".toList
    anchorsOf := fun b =>
      if b = exBody then ["/page2".toList, "/page2".toList, "https://other.com/x".toList]
      else [] }

/-- C1 (counterexample): in the crawl of `exCfg`, the URL
`https://example.com/page2` is enqueued twice (the start page links to it
twice, and the enqueue guard checks only the visited set, not the queue), and
after it is first visited the frontier still contains an entry for it — so
"no URL is enqueued more than once" and "the frontier never contains a url
already in the visited set" are both false of the code. -/
theorem claim_C1_counterexample :
    ((crawl_website exCfg 10).queue = [] ∧
      ((crawl_website exCfg 10).enqueueLog.map Prod.fst).count exP2 = 2) ∧
    (exP2 ∈ (crawl_website exCfg 2).visited ∧ (exP2, 1) ∈ (crawl_website exCfg 2).queue) := by
  refine ⟨⟨?_, ?_⟩, ?_, ?_⟩ <;> decide

/-- C2 (witness): in the crawl of `exCfg`, the entry for
`https://example.com/page2` was appended to the frontier, and the theorem
yields that its domain equals the start URL's domain. -/
theorem claim_C2_witness :
    (exP2, 1) ∈ (crawl_website exCfg 10).enqueueLog ∧
      get_domain exP2 = get_domain exCfg.start_url :=
  ⟨by decide, (claim_C2_same_domain exCfg 10).1 (exP2, 1) (by decide)⟩

/-- A URL that passes `is_valid_url` has a non-empty domain, so the second
guard of streamlit_app.py:48 can never fire after the first has passed. -/
theorem get_domain_ne_nil_of_valid (u : Str) (h : is_valid_url u = true) :
    get_domain u ≠ [] := by
  unfold is_valid_url at h
  rw [Bool.and_eq_true, decide_eq_true_eq, decide_eq_true_eq] at h
  exact h.2

/-- In the visit branch with a successful HTML fetch, the discovered-link
accumulator grows exactly by the reconstructed codes of the page. -/
theorem processEntry_found_success (cfg : CrawlConfig) (dom : Str) (u : Str) (d : Nat)
    (st : CrawlState) (body ctype : Str) (h : ¬(u ∈ st.visited ∨ d > cfg.max_depth))
    (hf : cfg.fetch u = FetchOutcome.success body ctype)
    (hh : htmlOk (ctype.map Char.toLower) = true) :
    (processEntry cfg dom u d st).found =
      st.found ∪ (find_whatsapp_links body).image waReconstruct := by
  unfold processEntry
  rw [if_neg h]
  rw [hf]
  by_cases hd : d < cfg.max_depth <;> simp [hh, hd] <;> split <;> simp

/-- The first loop turn from the initial state pops the start entry. -/
def initPopped (start : Str) : CrawlState :=
  { queue := [], visited := ∅, found := ∅, pages_crawled := 0, processed := 0,
    events := [], fetchLog := [], enqueueLog := [], popped := [(start, 0)] }

theorem crawlStep_init (cfg : CrawlConfig) (dom : Str) (start : Str) :
    crawlStep cfg dom (initState start) = processEntry cfg dom start 0 (initPopped start) := rfl

/-- C3: with maxDepth = 0 and a valid start URL whose fetch succeeds with an
HTML body, exactly one page is fetched (pagesCrawled = 1, and the fetch log
is exactly the start URL), the WhatsApp invite links of that page are
extracted into the result, and nothing is ever appended to the frontier. -/
theorem claim_C3_depth_zero (cfg : CrawlConfig) (fuel : Nat) (body ctype : Str)
    (h0 : cfg.max_depth = 0)
    (h1 : is_valid_url cfg.start_url = true)
    (h2 : cfg.fetch cfg.start_url = FetchOutcome.success body ctype)
    (h3 : htmlOk (ctype.map Char.toLower) = true)
    (h4 : 1 <= fuel) :
    (crawl_website cfg fuel).pages_crawled = 1 ∧
    (crawl_website cfg fuel).fetchLog = [cfg.start_url] ∧
    (crawl_website cfg fuel).enqueueLog = [] ∧
    (crawl_website cfg fuel).found = (find_whatsapp_links body).image waReconstruct := by
  obtain ⟨f, rfl⟩ := Nat.exists_eq_add_of_le h4
  unfold crawl_website
  rw [if_neg (by rw [h1]; exact fun hc => hc rfl)]
  dsimp only
  rw [if_neg (get_domain_ne_nil_of_valid _ h1)]
  rw [Nat.add_comm 1 f]
  have hloop1 : crawlLoop cfg (get_domain cfg.start_url) (f + 1) (initState cfg.start_url) =
      crawlLoop cfg (get_domain cfg.start_url) f
        (crawlStep cfg (get_domain cfg.start_url) (initState cfg.start_url)) := rfl
  rw [hloop1, crawlStep_init]
  have hv : ¬(cfg.start_url ∈ (initPopped cfg.start_url).visited ∨ 0 > cfg.max_depth) := by
    rw [h0]
    simp [initPopped]
  obtain ⟨hc1, hc2, hc3, -, -⟩ := processEntry_visit_common cfg (get_domain cfg.start_url)
    cfg.start_url 0 (initPopped cfg.start_url) hv
  obtain ⟨new, hq2, he2, hnew⟩ := processEntry_visit_queue cfg (get_domain cfg.start_url)
    cfg.start_url 0 (initPopped cfg.start_url) hv
  have hfound := processEntry_found_success cfg (get_domain cfg.start_url)
    cfg.start_url 0 (initPopped cfg.start_url) body ctype hv h2 h3
  have hnewnil : new = [] := by
    rcases hnew with rfl | ⟨b, c, -, -, hlt, -⟩
    · rfl
    · rw [h0] at hlt
      exact absurd hlt (Nat.not_lt_zero 0)
  subst hnewnil
  have hqnil : (processEntry cfg (get_domain cfg.start_url) cfg.start_url 0
      (initPopped cfg.start_url)).queue = [] := by
    rw [hq2]
    rfl
  rw [crawlLoop_of_queue_nil _ _ _ _ hqnil]
  refine ⟨?_, ?_, ?_, ?_⟩ <;> dsimp only
  · rw [hc2]
    rfl
  · rw [hc3]
    rfl
  · rw [he2]
    rfl
  · rw [hfound]
    exact Finset.empty_union _

/-- In the visit branch, when the fetch does not yield an HTML success —
network error, HTTP error status, or a non-HTML content type — the last
UI event emitted for the entry is a warning. -/
theorem processEntry_warning (cfg : CrawlConfig) (dom : Str) (u : Str) (d : Nat)
    (st : CrawlState) (h : ¬(u ∈ st.visited ∨ d > cfg.max_depth))
    (hfail : ∀ body ctype, cfg.fetch u = FetchOutcome.success body ctype →
      htmlOk (ctype.map Char.toLower) = false) :
    ∃ m, (processEntry cfg dom u d st).events.getLast? = some (Event.warning m) := by
  unfold processEntry
  rw [if_neg h]
  cases hfetch : cfg.fetch u with
  | networkError m => exact ⟨failMsg u m, by split <;> simp⟩
  | httpError c m => exact ⟨failMsg u m, by split <;> simp⟩
  | success b c =>
    have hh := hfail b c hfetch
    exact ⟨skipMsg u (c.map Char.toLower), by simp [hh] <;> split <;> simp⟩

/-- C7: a frontier entry whose fetch fails (network error or non-2xx status)
or whose content type is not HTML is tolerated: the crawl emits a warning for
it, extracts no links and appends nothing to the frontier, still counts the
page in pagesCrawled, and the loop goes on with the next frontier entry
rather than aborting. -/
theorem claim_C7_failed_fetch_tolerated (cfg : CrawlConfig) (dom : Str) (st : CrawlState)
    (u : Str) (d : Nat) (rest : List (Str × Nat)) (fuel : Nat)
    (hq : st.queue = (u, d) :: rest)
    (hnv : u ∉ st.visited) (hd : d ≤ cfg.max_depth)
    (hfail : ∀ body ctype, cfg.fetch u = FetchOutcome.success body ctype →
      htmlOk (ctype.map Char.toLower) = false) :
    (crawlStep cfg dom st).found = st.found ∧
    (crawlStep cfg dom st).queue = rest ∧
    (crawlStep cfg dom st).enqueueLog = st.enqueueLog ∧
    (crawlStep cfg dom st).pages_crawled = st.pages_crawled + 1 ∧
    (∃ m, (crawlStep cfg dom st).events.getLast? = some (Event.warning m)) ∧
    crawlLoop cfg dom (fuel + 1) st = crawlLoop cfg dom fuel (crawlStep cfg dom st) := by
  have hstep := crawlStep_of_queue_cons cfg dom st u d rest hq
  have hv : ¬(u ∈ ({ st with queue := rest, popped := st.popped ++ [(u, d)] } : CrawlState).visited ∨ d > cfg.max_depth) := by
    rw [not_or]
    exact ⟨hnv, Nat.not_lt.mpr hd⟩
  obtain ⟨-, hc2, -, -, -⟩ := processEntry_visit_common cfg dom u d _ hv
  obtain ⟨new, hq2, he2, hnew⟩ := processEntry_visit_queue cfg dom u d _ hv
  have hnewnil : new = [] := by
    rcases hnew with rfl | ⟨b, c, hfs, hh, -, -⟩
    · rfl
    · rw [hfail b c hfs] at hh
      cases hh
  subst hnewnil
  have hfound : (processEntry cfg dom u d
      ({ st with queue := rest, popped := st.popped ++ [(u, d)] } : CrawlState)).found = st.found := by
    rcases processEntry_visit_found cfg dom u d _ hv with hf | ⟨b, c, hfs, hh, -⟩
    · exact hf
    · rw [hfail b c hfs] at hh
      cases hh
  refine ⟨?_, ?_, ?_, ?_, ?_, rfl⟩ <;> rw [hstep]
  · exact hfound
  · rw [hq2]
    exact List.append_nil _
  · rw [he2]
    exact List.append_nil _
  · exact hc2
  · exact processEntry_warning cfg dom u d _ hv hfail

/-- C8: an invalid start URL (or one with no determinable domain) makes the
crawl report an error event and return an empty link set with
pagesCrawled = 0, without issuing any network request and without raising. -/
theorem claim_C8_invalid_start (cfg : CrawlConfig) (fuel : Nat)
    (h : is_valid_url cfg.start_url = false ∨ get_domain cfg.start_url = []) :
    (crawl_website cfg fuel).found = ∅ ∧
    (crawl_website cfg fuel).pages_crawled = 0 ∧
    (crawl_website cfg fuel).fetchLog = [] ∧
    ∃ m, Event.error m ∈ (crawl_website cfg fuel).events := by
  have hinvalid : is_valid_url cfg.start_url = false := by
    rcases h with h | h
    · exact h
    · by_cases hv : is_valid_url cfg.start_url
      · exact absurd h (get_domain_ne_nil_of_valid _ hv)
      · exact Bool.not_eq_true _ ▸ eq_false_of_ne_true hv
  unfold crawl_website
  rw [if_pos (by rw [hinvalid]; exact Bool.false_ne_true)]
  exact ⟨rfl, rfl, rfl, invalidMsg cfg.start_url, by simp [errorState]⟩

/-! ## Concrete witness crawls -/

/-- A crawl of `exStart` with depth 0 and a page carrying one invite link. -/
def exCfgDepth0 : CrawlConfig :=
  { start_url := exStart
    max_depth := 0
    fetch := fun _ =>
      FetchOutcome.success "Join: https://chat.whatsapp.com/ABC123xyz now".toList "text/html".toList
    anchorsOf := fun _ => ["/page2".toList] }

/-- C3 (witness): the depth-0 crawl of `exCfgDepth0` fetches exactly the
start page, extracts its invite link, and appends nothing to the frontier. -/
theorem claim_C3_witness :
    (exCfgDepth0.max_depth = 0 ∧ is_valid_url exCfgDepth0.start_url = true) ∧
    ((crawl_website exCfgDepth0 5).pages_crawled = 1 ∧
      (crawl_website exCfgDepth0 5).fetchLog = [exCfgDepth0.start_url] ∧
      (crawl_website exCfgDepth0 5).enqueueLog = [] ∧
      (crawl_website exCfgDepth0 5).found =
        (find_whatsapp_links "Join: https://chat.whatsapp.com/ABC123xyz now".toList).image
          waReconstruct) :=
  ⟨⟨rfl, by decide⟩,
    claim_C3_depth_zero exCfgDepth0 5
      "Join: https://chat.whatsapp.com/ABC123xyz now".toList "text/html".toList
      rfl (by decide) rfl (by decide) (by decide)⟩

/-- A crawl state about to process a page served as `application/pdf`. -/
def exPdfState : CrawlState :=
  { queue := [(exStart, 0)], visited := ∅, found := ∅, pages_crawled := 0,
    processed := 0, events := [], fetchLog := [], enqueueLog := [], popped := [] }

/-- The configuration serving that PDF page. -/
def exCfgPdf : CrawlConfig :=
  { start_url := exStart
    max_depth := 1
    fetch := fun _ => FetchOutcome.success "pdfbytes".toList "application/pdf".toList
    anchorsOf := fun _ => ["/page2".toList] }

/-- C7 (witness): processing the PDF entry emits a warning, extracts no
links, expands nothing, still counts the page, and the loop goes on. -/
theorem claim_C7_witness :
    (crawlStep exCfgPdf (get_domain exStart) exPdfState).found = exPdfState.found ∧
    (crawlStep exCfgPdf (get_domain exStart) exPdfState).queue = [] ∧
    (crawlStep exCfgPdf (get_domain exStart) exPdfState).enqueueLog = exPdfState.enqueueLog ∧
    (crawlStep exCfgPdf (get_domain exStart) exPdfState).pages_crawled = exPdfState.pages_crawled + 1 ∧
    (∃ m, (crawlStep exCfgPdf (get_domain exStart) exPdfState).events.getLast? =
      some (Event.warning m)) ∧
    crawlLoop exCfgPdf (get_domain exStart) 4 exPdfState =
      crawlLoop exCfgPdf (get_domain exStart) 3 (crawlStep exCfgPdf (get_domain exStart) exPdfState) :=
  claim_C7_failed_fetch_tolerated exCfgPdf (get_domain exStart) exPdfState exStart 0 [] 3
    rfl (by decide) (by decide)
    (fun body ctype hfs => by
      injection hfs with hb hc
      rw [← hc]
      decide)

/-- The configuration with a start URL that has no scheme. -/
def exCfgBad : CrawlConfig :=
  { start_url := "notaurl".toList
    max_depth := 3
    fetch := fun _ => FetchOutcome.networkError "unreachable".toList
    anchorsOf := fun _ => [] }

/-- C8 (witness): the crawl of the invalid start URL `notaurl` returns the
empty result without fetching and reports an error event. -/
theorem claim_C8_witness :
    is_valid_url exCfgBad.start_url = false ∧
    ((crawl_website exCfgBad 7).found = ∅ ∧
      (crawl_website exCfgBad 7).pages_crawled = 0 ∧
      (crawl_website exCfgBad 7).fetchLog = [] ∧
      ∃ m, Event.error m ∈ (crawl_website exCfgBad 7).events) :=
  ⟨by decide, claim_C8_invalid_start exCfgBad 7 (Or.inl (by decide))⟩

/-! ## Canonical form of cleaned URLs

`cleanUrl` output reparses with empty query and fragment: its components
contain no `#` or `?` character, so the reassembled string contains none
either.  These lemmas walk each splitting function. -/

theorem char_toNat_ofNat (n : Nat) (h : n.isValidChar) : (Char.ofNat n).toNat = n := by
  unfold Char.ofNat
  rw [dif_pos h]
  rfl

/-- `Char.toLower` can only produce an ASCII lowercase letter or leave its
input unchanged, so if its output is some non-lowercase-letter `x`, the input
was already `x`. -/
theorem toLower_eq_of_not_lower (c x : Char) (hx : x.toNat < 97 ∨ 122 < x.toNat)
    (h : Char.toLower c = x) : c = x := by
  have h' : (if c.toNat ≥ 65 ∧ c.toNat ≤ 90 then Char.ofNat (c.toNat + 32) else c) = x := h
  clear h
  split at h'
  · rename_i hrange
    have hval : (c.toNat + 32).isValidChar := Or.inl (by omega)
    have h2 := congrArg Char.toNat h'
    rw [char_toNat_ofNat _ hval] at h2
    omega
  · exact h'

theorem splitFragment_fst_no_hash (l : Str) : ∀ c ∈ (splitFragment l).1, c ≠ '#' := by
  unfold splitFragment
  cases hd : l.dropWhile (fun c => c ≠ '#') with
  | nil =>
    intro c hc
    simpa using List.dropWhile_eq_nil_iff.mp hd c hc
  | cons a rest =>
    intro c hc
    have := List.mem_takeWhile_imp hc
    simpa using this

theorem splitFragment_fst_subset (l : Str) : ∀ c ∈ (splitFragment l).1, c ∈ l := by
  unfold splitFragment
  cases hd : l.dropWhile (fun c => c ≠ '#') with
  | nil => exact fun c hc => hc
  | cons a rest => exact fun c hc => ( List.takeWhile_prefix _).subset hc

theorem splitQuery_fst_no_qm (l : Str) : ∀ c ∈ (splitQuery l).1, c ≠ '?' := by
  unfold splitQuery
  cases hd : l.dropWhile (fun c => c ≠ '?') with
  | nil =>
    intro c hc
    simpa using List.dropWhile_eq_nil_iff.mp hd c hc
  | cons a rest =>
    intro c hc
    have := List.mem_takeWhile_imp hc
    simpa using this

theorem splitQuery_fst_subset (l : Str) : ∀ c ∈ (splitQuery l).1, c ∈ l := by
  unfold splitQuery
  cases hd : l.dropWhile (fun c => c ≠ '?') with
  | nil => exact fun c hc => hc
  | cons a rest => exact fun c hc => ( List.takeWhile_prefix _).subset hc

theorem splitScheme_fst_chars (l : Str) :
    ∀ c ∈ (splitScheme l).1, ∃ c0, schemeChar c0 = true ∧ c = Char.toLower c0 := by
  unfold splitScheme
  cases hd : l.dropWhile (fun c => c ≠ ':') with
  | nil =>
    intro c hc
    cases hc
  | cons a rest =>
    cases hp : l.takeWhile (fun c => c ≠ ':') with
    | nil =>
      intro c hc
      cases hc
    | cons c0 cs =>
      dsimp only
      split
      · intro c hc
        rename_i hcond
        obtain ⟨c1, hc1, rfl⟩ := List.mem_map.mp hc
        refine ⟨c1, ?_, rfl⟩
        have := hcond.2
        rw [List.all_eq_true] at this
        exact this c1 hc1
      · intro c hc
        cases hc

theorem splitScheme_snd_subset (l : Str) : ∀ c ∈ (splitScheme l).2, c ∈ l := by
  unfold splitScheme
  cases hd : l.dropWhile (fun c => c ≠ ':') with
  | nil => exact fun c hc => hc
  | cons a rest =>
    cases hp : l.takeWhile (fun c => c ≠ ':') with
    | nil => exact fun c hc => hc
    | cons c0 cs =>
      dsimp only
      split
      · intro c hc
        have : c ∈ l.dropWhile (fun c => c ≠ ':') := by
          rw [hd]
          exact List.mem_cons_of_mem _ hc
        exact (List.dropWhile_suffix _).subset this
      · exact fun c hc => hc

theorem splitNetloc_fst_chars (l : Str) :
    ∀ c ∈ (splitNetloc l).1, c ≠ '#' ∧ c ≠ '?' := by
  unfold splitNetloc
  split
  · intro c hc
    have := List.mem_takeWhile_imp hc
    simp only [Bool.not_eq_true', netlocEnd] at this
    simp only [Bool.or_eq_false_iff, beq_eq_false_iff_ne] at this
    exact ⟨this.2, this.1.2⟩
  · intro c hc
    cases hc

theorem splitNetloc_snd_subset (l : Str) : ∀ c ∈ (splitNetloc l).2, c ∈ l := by
  unfold splitNetloc
  split
  · intro c hc
    exact (List.drop_subset 2 l) ((List.dropWhile_suffix _).subset hc)
  · exact fun c hc => hc

theorem splitParams_fst_subset (l : Str) : ∀ c ∈ (splitParams l).1, c ∈ l := by
  unfold splitParams
  have hafter : ∀ c ∈ (l.reverse.takeWhile (fun c => c ≠ '/')).reverse, c ∈ l := by
    intro c hc
    rw [List.mem_reverse] at hc
    have := ( List.takeWhile_prefix _).subset hc
    rwa [List.mem_reverse] at this
  cases hd : ((l.reverse.takeWhile (fun c => c ≠ '/')).reverse).dropWhile (fun c => c ≠ ';') with
  | nil => exact fun c hc => hc
  | cons a rest =>
    intro c hc
    dsimp only at hc
    rcases List.mem_append.mp hc with hc | hc
    · exact (List.take_subset _ l) hc
    · exact hafter c (( List.takeWhile_prefix _).subset hc)

theorem splitParams_snd_subset (l : Str) : ∀ c ∈ (splitParams l).2, c ∈ l := by
  unfold splitParams
  have hafter : ∀ c ∈ (l.reverse.takeWhile (fun c => c ≠ '/')).reverse, c ∈ l := by
    intro c hc
    rw [List.mem_reverse] at hc
    have := ( List.takeWhile_prefix _).subset hc
    rwa [List.mem_reverse] at this
  cases hd : ((l.reverse.takeWhile (fun c => c ≠ '/')).reverse).dropWhile (fun c => c ≠ ';') with
  | nil =>
    intro c hc
    cases hc
  | cons a rest =>
    intro c hc
    dsimp only at hc
    refine hafter c ((List.dropWhile_suffix (fun c => decide (c ≠ ';'))).subset ?_)
    rw [hd]
    exact List.mem_cons_of_mem _ hc

theorem schemeChar_no_hash_qm (c : Char) (h : schemeChar c = true) :
    Char.toLower c ≠ '#' ∧ Char.toLower c ≠ '?' := by
  constructor
  · intro hl
    have := toLower_eq_of_not_lower c '#' (by decide) hl
    rw [this] at h
    cases h
  · intro hl
    have := toLower_eq_of_not_lower c '?' (by decide) hl
    rw [this] at h
    cases h

/-- No component kept by `urlparseD url []` contains a `#` or `?`
character: the netloc stops at any of them, the fragment and query splits
remove everything from the first `#` and `?` on, and scheme characters are
alphanumerics or `+`/`-`/`.`. -/
theorem urlparseD_components_chars (url : Str) :
    (∀ c ∈ (urlparseD url []).scheme, c ≠ '#' ∧ c ≠ '?') ∧
    (∀ c ∈ (urlparseD url []).netloc, c ≠ '#' ∧ c ≠ '?') ∧
    (∀ c ∈ (urlparseD url []).path, c ≠ '#' ∧ c ≠ '?') ∧
    (∀ c ∈ (urlparseD url []).params, c ≠ '#' ∧ c ≠ '?') := by
  have hscheme0 : ∀ c ∈ (urlsplitD url []).scheme, c ≠ '#' ∧ c ≠ '?' := by
    intro c hc
    unfold urlsplitD at hc
    dsimp only at hc
    split at hc
    · cases hc
    · obtain ⟨c0, hc0, rfl⟩ := splitScheme_fst_chars url c hc
      exact schemeChar_no_hash_qm c0 hc0
  have hnetloc0 : ∀ c ∈ (urlsplitD url []).netloc, c ≠ '#' ∧ c ≠ '?' := by
    intro c hc
    unfold urlsplitD at hc
    dsimp only at hc
    exact splitNetloc_fst_chars _ c hc
  have hpath0 : ∀ c ∈ (urlsplitD url []).path, c ≠ '#' ∧ c ≠ '?' := by
    intro c hc
    unfold urlsplitD at hc
    dsimp only at hc
    refine ⟨?_, splitQuery_fst_no_qm _ c hc⟩
    exact splitFragment_fst_no_hash _ c (splitQuery_fst_subset _ c hc)
  unfold urlparseD
  split
  · dsimp only
    refine ⟨hscheme0, hnetloc0, ?_, ?_⟩
    · exact fun c hc => hpath0 c (splitParams_fst_subset _ c hc)
    · exact fun c hc => hpath0 c (splitParams_snd_subset _ c hc)
  · exact ⟨hscheme0, hnetloc0, hpath0, fun c hc => by cases hc⟩

theorem mem_unparseParams (path params : Str) (c : Char)
    (hc : c ∈ unparseParams path params) : c ∈ path ∨ c ∈ params ∨ c = ';' := by
  unfold unparseParams at hc
  split at hc
  · rcases List.mem_append.mp hc with hc | hc
    · exact Or.inl hc
    · rcases List.mem_cons.mp hc with hc | hc
      · exact Or.inr (Or.inr hc)
      · exact Or.inr (Or.inl hc)
  · exact Or.inl hc

theorem mem_unparseNetloc (netloc url0 : Str) (c : Char)
    (hc : c ∈ unparseNetloc netloc url0) : c ∈ netloc ∨ c ∈ url0 ∨ c = '/' := by
  unfold unparseNetloc at hc
  split at hc
  · rcases List.mem_cons.mp hc with hc | hc
    · exact Or.inr (Or.inr hc)
    rcases List.mem_cons.mp hc with hc | hc
    · exact Or.inr (Or.inr hc)
    rcases List.mem_append.mp hc with hc | hc
    · exact Or.inl hc
    split at hc
    · rcases List.mem_cons.mp hc with hc | hc
      · exact Or.inr (Or.inr hc)
      · exact Or.inr (Or.inl hc)
    · exact Or.inr (Or.inl hc)
  · exact Or.inr (Or.inl hc)

theorem mem_unparseScheme (scheme url1 : Str) (c : Char)
    (hc : c ∈ unparseScheme scheme url1) : c ∈ scheme ∨ c ∈ url1 ∨ c = ':' := by
  unfold unparseScheme at hc
  split at hc
  · rcases List.mem_append.mp hc with hc | hc
    · exact Or.inl hc
    rcases List.mem_cons.mp hc with hc | hc
    · exact Or.inr (Or.inr hc)
    · exact Or.inr (Or.inl hc)
  · exact Or.inr (Or.inl hc)

/-- Every character of the reassembled URL of a query-free, fragment-free
parse comes from one of the kept components or is one of the separators
`:`, `/`, `;`. -/
theorem mem_urlunparse_no_qf (p : UrlParts) (hq : p.query = []) (hf : p.fragment = [])
    (c : Char) (hc : c ∈ urlunparse p) :
    c ∈ p.scheme ∨ c ∈ p.netloc ∨ c ∈ p.path ∨ c ∈ p.params ∨ c = ':' ∨ c = '/' ∨ c = ';' := by
  unfold urlunparse at hc
  rw [hq, hf] at hc
  rw [if_neg (fun hx => hx rfl), if_neg (fun hx => hx rfl)] at hc
  rcases mem_unparseScheme _ _ _ hc with h | h | h
  · exact Or.inl h
  · rcases mem_unparseNetloc _ _ _ h with h2 | h2 | h2
    · exact Or.inr (Or.inl h2)
    · rcases mem_unparseParams _ _ _ h2 with h3 | h3 | h3
      · exact Or.inr (Or.inr (Or.inl h3))
      · exact Or.inr (Or.inr (Or.inr (Or.inl h3)))
      · exact Or.inr (Or.inr (Or.inr (Or.inr (Or.inr (Or.inr h3)))))
    · exact Or.inr (Or.inr (Or.inr (Or.inr (Or.inr (Or.inl h2)))))
  · exact Or.inr (Or.inr (Or.inr (Or.inr (Or.inl h))))

theorem splitFragment_snd_nil (l : Str) (h : ∀ c ∈ l, c ≠ '#') :
    (splitFragment l).2 = [] := by
  unfold splitFragment
  rw [List.dropWhile_eq_nil_iff.mpr (by simpa using h)]

theorem splitQuery_snd_nil (l : Str) (h : ∀ c ∈ l, c ≠ '?') :
    (splitQuery l).2 = [] := by
  unfold splitQuery
  rw [List.dropWhile_eq_nil_iff.mpr (by simpa using h)]

/-- Parsing a string with no `#` and no `?` yields empty fragment and
query. -/
theorem urlparseD_no_hash_qm (u d : Str) (h : ∀ c ∈ u, c ≠ '#' ∧ c ≠ '?') :
    (urlparseD u d).query = [] ∧ (urlparseD u d).fragment = [] := by
  have hsub : ∀ c ∈ (splitNetloc (splitScheme u).2).2, c ∈ u := fun c hc =>
    splitScheme_snd_subset u c (splitNetloc_snd_subset _ c hc)
  have hfrag : (urlsplitD u d).fragment = [] := by
    unfold urlsplitD
    dsimp only
    exact splitFragment_snd_nil _ fun c hc => (h c (hsub c hc)).1
  have hquery : (urlsplitD u d).query = [] := by
    unfold urlsplitD
    dsimp only
    refine splitQuery_snd_nil _ fun c hc => ?_
    exact (h c (hsub c (splitFragment_fst_subset _ c hc))).2
  unfold urlparseD
  split
  · exact ⟨hquery, hfrag⟩
  · exact ⟨hquery, hfrag⟩

/-- The canonical-form predicate of the spec: parsing the URL yields an
empty query and an empty fragment. -/
def isCanonicalForm (u : Str) : Prop :=
  (urlparseD u []).query = [] ∧ (urlparseD u []).fragment = []

instance (u : Str) : Decidable (isCanonicalForm u) := by
  unfold isCanonicalForm
  infer_instance

/-- The output of the crawler's fragment-and-query stripping is always in
canonical form: stripping is idempotent at the level of the kept string. -/
theorem cleanUrl_canonical (s : Str) : isCanonicalForm (cleanUrl s) := by
  obtain ⟨hs, hn, hp, hpa⟩ := urlparseD_components_chars s
  refine urlparseD_no_hash_qm _ [] fun c hc => ?_
  unfold cleanUrl at hc
  rcases mem_urlunparse_no_qf _ rfl rfl c hc with h | h | h | h | h | h | h
  · exact hs c h
  · exact hn c h
  · exact hp c h
  · exact hpa c h
  · rw [h]
    exact ⟨by decide, by decide⟩
  · rw [h]
    exact ⟨by decide, by decide⟩
  · rw [h]
    exact ⟨by decide, by decide⟩

/-- Canonicality of enqueued URLs is preserved by every loop turn: each
appended entry is the output of `cleanUrl`. -/
theorem crawlStep_canonical (cfg : CrawlConfig) (dom : Str) (st : CrawlState)
    (h : ∀ p ∈ st.enqueueLog, isCanonicalForm p.1) :
    ∀ p ∈ (crawlStep cfg dom st).enqueueLog, isCanonicalForm p.1 := by
  cases hq : st.queue with
  | nil =>
    rw [crawlStep_of_queue_nil cfg dom st hq]
    exact h
  | cons e rest =>
    obtain ⟨u, d⟩ := e
    rw [crawlStep_of_queue_cons cfg dom st u d rest hq]
    by_cases hv : u ∈ st.visited ∨ d > cfg.max_depth
    · rw [processEntry_skip cfg dom u d { st with queue := rest, popped := st.popped ++ [(u, d)] } hv]
      exact h
    · obtain ⟨new, -, he2, hnew⟩ :=
        processEntry_visit_queue cfg dom u d
          { st with queue := rest, popped := st.popped ++ [(u, d)] } hv
      rw [he2]
      intro p hp
      rcases List.mem_append.mp hp with hp | hp
      · exact h p hp
      · rcases hnew with rfl | ⟨body, ctype, -, -, -, rfl⟩
        · cases hp
        · obtain ⟨-, -, -, -, href, -, heq⟩ := expandLinks_mem _ _ _ _ _ _ hp
          rw [heq]
          exact cleanUrl_canonical _

/-- C5 (amended): every URL appended to the frontier during the crawl — that
is, every discovered link — is in canonical form (parsing it yields empty
query and fragment), so discovered URLs differing only by fragment or query
share one key and are fetched at most once; the start URL, however, is
enqueued and visited exactly as given, without canonicalization. -/
theorem claim_C5_amended_enqueued_canonical (cfg : CrawlConfig) (fuel : Nat) :
    ∀ p ∈ (crawl_website cfg fuel).enqueueLog, isCanonicalForm p.1 := by
  exact crawl_website_spec cfg fuel (fun st => ∀ p ∈ st.enqueueLog, isCanonicalForm p.1)
    (fun st e h => h)
    (fun msg p hp => by cases hp)
    (fun p hp => by cases hp)
    (fun st h => crawlStep_canonical cfg (get_domain cfg.start_url) st h)

/-- C5 (witness): the discovered link `https://example.com/page2` of the
`exCfg` crawl is in canonical form. -/
theorem claim_C5_witness :
    (exP2, 1) ∈ (crawl_website exCfg 10).enqueueLog ∧ isCanonicalForm exP2 :=
  ⟨by decide, claim_C5_amended_enqueued_canonical exCfg 10 (exP2, 1) (by decide)⟩

/-- A crawl whose start URL carries a query string. -/
def exQStart : Str := "https://example.com/a?x=1".toList

/-- See `exQStart`: the crawl of a start URL that is not in canonical form. -/
def exCfgQuery : CrawlConfig :=
  { start_url := exQStart
    max_depth := 1
    fetch := fun _ => FetchOutcome.networkError "down".toList
    anchorsOf := fun _ => [] }

/-- C5 (counterexample): the start URL is put on the frontier and into the
visited set exactly as given — here with its query string intact — so it is
not the case that every URL stored in the visited set or the frontier is in
canonical form. -/
theorem claim_C5_counterexample :
    ((crawl_website exCfgQuery 0).queue = [(exQStart, 0)] ∧
      exQStart ∈ (crawl_website exCfgQuery 1).visited) ∧
    ¬ isCanonicalForm exQStart := by
  refine ⟨⟨?_, ?_⟩, ?_⟩ <;> decide

/-! ## Idempotence of canonicalization on absolute canonical URLs -/

theorem urlsplitD_default (u d : Str) (h : ¬(splitScheme u).1 = []) :
    urlsplitD u d = urlsplitD u [] := by
  unfold urlsplitD
  dsimp only
  rw [if_neg h, if_neg h]

theorem urlparseD_scheme_eq (u d : Str) :
    (urlparseD u d).scheme = (urlsplitD u d).scheme := by
  unfold urlparseD
  split <;> rfl

/-- The default scheme passed to `urlparse` is irrelevant when the URL
carries its own scheme. -/
theorem urlparseD_default (u d : Str) (h : (urlparseD u []).scheme ≠ []) :
    urlparseD u d = urlparseD u [] := by
  have hfst : ¬(splitScheme u).1 = [] := by
    intro hf
    apply h
    rw [urlparseD_scheme_eq]
    unfold urlsplitD
    dsimp only
    rw [if_pos hf]
  unfold urlparseD
  rw [urlsplitD_default u d hfst]

theorem uses_relative_subset_netloc : ∀ s ∈ uses_relative, s ∈ uses_netloc := by decide

/-- Stripping an already-stripped parse is the identity on the parts. -/
theorem strip_of_no_qf (p : UrlParts) (hq : p.query = []) (hf : p.fragment = []) :
    ({ p with query := [], fragment := [] } : UrlParts) = p := by
  obtain ⟨s, n, pth, pa, q, f⟩ := p
  dsimp only at hq hf
  rw [hq, hf]

/-- C9 (amended): canonicalization is idempotent on absolute canonical URLs:
for every URL with a non-empty scheme and host, no query, no fragment, that a
single parse-strip-unparse pass leaves unchanged, resolving it against any
base and stripping fragment and query returns the same URL string. -/
theorem claim_C9_amended_canonicalize_idempotent (base u : Str)
    (h1 : (urlparseD u []).scheme ≠ [])
    (h2 : (urlparseD u []).netloc ≠ [])
    (h3 : (urlparseD u []).query = [])
    (h4 : (urlparseD u []).fragment = [])
    (h5 : cleanUrl u = u) :
    canonicalize base u = u := by
  have hu_ne : u ≠ [] := by
    intro h0
    rw [h0] at h1
    exact h1 (by decide)
  unfold canonicalize urljoin
  by_cases hb : base = []
  · rw [if_pos hb]
    exact h5
  · rw [if_neg hb, if_neg hu_ne]
    dsimp only
    rw [urlparseD_default u (urlparseD base []).scheme h1]
    by_cases hcond : (urlparseD u []).scheme ≠ (urlparseD base []).scheme ∨
        (urlparseD u []).scheme ∉ uses_relative
    · rw [if_pos hcond]
      exact h5
    · rw [if_neg hcond]
      push_neg at hcond
      have hnl : (urlparseD u []).scheme ∈ uses_netloc :=
        uses_relative_subset_netloc _ hcond.2
      rw [if_pos ⟨hnl, h2⟩]
      have hun : urlunparse (urlparseD u []) = cleanUrl u := by
        unfold cleanUrl
        rw [strip_of_no_qf _ h3 h4]
      rw [hun, h5]
      exact h5

/-- C9 (counterexample): two URLs with no fragment and no query — the
claim's notion of canonical form — that canonicalization does not return
unchanged: a relative reference is resolved against the base, and an
uppercase scheme is lowercased. -/
theorem claim_C9_counterexample :
    (isCanonicalForm "page2".toList ∧
      canonicalize "https://example.com/a/".toList "page2".toList ≠ "page2".toList) ∧
    (isCanonicalForm "HTTP://example.com/x".toList ∧
      canonicalize "https://example.com/a/".toList "HTTP://example.com/x".toList ≠
        "HTTP://example.com/x".toList) := by
  refine ⟨⟨?_, ?_⟩, ?_, ?_⟩ <;> decide

/-- C9 (witness): an absolute canonical URL on a different host and scheme
case is returned unchanged by canonicalization against any base. -/
theorem claim_C9_witness :
    ((urlparseD "https://example.com/x".toList []).scheme ≠ [] ∧
      (urlparseD "https://example.com/x".toList []).netloc ≠ [] ∧
      (urlparseD "https://example.com/x".toList []).query = [] ∧
      (urlparseD "https://example.com/x".toList []).fragment = [] ∧
      cleanUrl "https://example.com/x".toList = "https://example.com/x".toList) ∧
    canonicalize "http://other.org/a/".toList "https://example.com/x".toList =
      "https://example.com/x".toList :=
  ⟨⟨by decide, by decide, by decide, by decide, by decide⟩,
    claim_C9_amended_canonicalize_idempotent "http://other.org/a/".toList
      "https://example.com/x".toList (by decide) (by decide) (by decide) (by decide) (by decide)⟩

/-! ## What the link extractor returns -/

/-- The set of invite codes described by the spec's words: the distinct
maximal non-empty runs of invite characters that follow an occurrence of
`https://chat.whatsapp.com/` or `http://chat.whatsapp.com/` anywhere in the
text (every position is considered an occurrence candidate). -/
def specInviteCodes (text : Str) : Finset Str :=
  ((List.range (text.length + 1)).filterMap
    (fun i => (matchInviteAt (text.drop i)).map Prod.fst)).toFinset

theorem matchInviteAt_suffix (l code after : Str)
    (h : matchInviteAt l = some (code, after)) : after <:+ l := by
  unfold matchInviteAt at h
  split at h
  · split at h
    · cases h
    · cases h
      exact ((List.drop_suffix _ _).trans (List.drop_suffix _ _))
  · split at h
    · split at h
      · cases h
      · cases h
        exact ((List.drop_suffix _ _).trans (List.drop_suffix _ _))
    · cases h

theorem matchInviteAt_code (l code after : Str)
    (h : matchInviteAt l = some (code, after)) :
    code ≠ [] ∧ code.all isInviteChar = true := by
  unfold matchInviteAt at h
  split at h
  · split at h
    · cases h
    · rename_i hne
      cases h
      refine ⟨hne, ?_⟩
      rw [List.all_eq_true]
      exact fun c hc => List.mem_takeWhile_imp hc
  · split at h
    · split at h
      · cases h
      · rename_i hne
        cases h
        refine ⟨hne, ?_⟩
        rw [List.all_eq_true]
        exact fun c hc => List.mem_takeWhile_imp hc
    · cases h

/-- Soundness of the scan: every returned code is produced by a regex match
at some suffix of the text. -/
theorem scanLinksAux_sound (n : Nat) :
    ∀ l : Str, ∀ c ∈ scanLinksAux n l,
      ∃ s, s <:+ l ∧ (matchInviteAt s).map Prod.fst = some c := by
  induction n with
  | zero =>
    intro l c hc
    simp [scanLinksAux] at hc
  | succ m ih =>
    intro l c hc
    cases l with
    | nil => simp [scanLinksAux] at hc
    | cons a rest =>
      rw [scanLinksAux] at hc
      split at hc
      · rename_i code after hm
        rcases List.mem_cons.mp hc with rfl | hc
        · exact ⟨a :: rest, List.suffix_refl _, by rw [hm]; rfl⟩
        · obtain ⟨s, hs, hsm⟩ := ih after c hc
          exact ⟨s, hs.trans (matchInviteAt_suffix _ _ _ hm), hsm⟩
      · obtain ⟨s, hs, hsm⟩ := ih rest c hc
        exact ⟨s, hs.trans (List.suffix_cons a rest), hsm⟩

theorem scanLinks_sound (text : Str) (c : Str) (h : c ∈ scanLinks text) :
    ∃ s, s <:+ text ∧ (matchInviteAt s).map Prod.fst = some c :=
  scanLinksAux_sound text.length text c h

/-- Every code returned by `find_whatsapp_links` follows some occurrence of
the pattern (it is in the spec's declarative set) and is a non-empty string
of invite characters. -/
theorem find_whatsapp_links_sound (text : Str) (c : Str)
    (h : c ∈ find_whatsapp_links text) :
    c ∈ specInviteCodes text ∧ c ≠ [] ∧ c.all isInviteChar = true := by
  rw [find_whatsapp_links, List.mem_toFinset] at h
  obtain ⟨s, hs, hsm⟩ := scanLinks_sound text c h
  constructor
  · rw [specInviteCodes, List.mem_toFinset, List.mem_filterMap]
    refine ⟨text.length - s.length, ?_, ?_⟩
    · rw [List.mem_range]
      omega
    · rw [← List.suffix_iff_eq_drop.mp hs]
      exact hsm
  · cases hm : matchInviteAt s with
    | none =>
      rw [hm] at hsm
      cases hsm
    | some pr =>
      rw [hm] at hsm
      obtain ⟨code, after⟩ := pr
      cases hsm
      exact matchInviteAt_code s _ after hm

/-- Shape of accumulated links is preserved by every loop turn: new links
are reconstructions of extracted codes. -/
theorem crawlStep_found_shape (cfg : CrawlConfig) (dom : Str) (st : CrawlState)
    (h : ∀ l ∈ st.found, ∃ code, code ≠ [] ∧ code.all isInviteChar = true ∧
      l = waReconstruct code) :
    ∀ l ∈ (crawlStep cfg dom st).found, ∃ code, code ≠ [] ∧
      code.all isInviteChar = true ∧ l = waReconstruct code := by
  cases hq : st.queue with
  | nil =>
    rw [crawlStep_of_queue_nil cfg dom st hq]
    exact h
  | cons e rest =>
    obtain ⟨u, d⟩ := e
    rw [crawlStep_of_queue_cons cfg dom st u d rest hq]
    by_cases hv : u ∈ st.visited ∨ d > cfg.max_depth
    · rw [processEntry_skip cfg dom u d { st with queue := rest, popped := st.popped ++ [(u, d)] } hv]
      exact h
    · rcases processEntry_visit_found cfg dom u d
        { st with queue := rest, popped := st.popped ++ [(u, d)] } hv with hf | ⟨body, ctype, -, -, hf⟩
      · rw [hf]
        exact h
      · rw [hf]
        intro l hl
        rcases Finset.mem_union.mp hl with hl | hl
        · exact h l hl
        · obtain ⟨code, hcode, rfl⟩ := Finset.mem_image.mp hl
          obtain ⟨-, hne, hall⟩ := find_whatsapp_links_sound body code hcode
          exact ⟨code, hne, hall, rfl⟩

/-- C6 (amended): the link extractor is sound for the spec's description —
every returned code is a maximal non-empty run of invite characters
following an occurrence of the pattern — but, scanning left to right without
overlap, it may return strictly fewer codes than the set of all such
occurrences; and every link in the final crawl result is exactly
`https://chat.whatsapp.com/<code>` for such a code, with no duplicates
(the result is a set). -/
theorem claim_C6_amended_extractor_sound :
    (∀ text c, c ∈ find_whatsapp_links text →
      c ∈ specInviteCodes text ∧ c ≠ [] ∧ c.all isInviteChar = true) ∧
    (∀ cfg : CrawlConfig, ∀ fuel : Nat, ∀ l ∈ (crawl_website cfg fuel).found,
      ∃ code, code ≠ [] ∧ code.all isInviteChar = true ∧ l = waReconstruct code) := by
  constructor
  · exact find_whatsapp_links_sound
  · intro cfg fuel
    exact crawl_website_spec cfg fuel
      (fun st => ∀ l ∈ st.found, ∃ code, code ≠ [] ∧ code.all isInviteChar = true ∧
        l = waReconstruct code)
      (fun st e h => h)
      (fun msg l hl => by cases List.not_mem_nil l hl)
      (fun l hl => by cases List.not_mem_nil l hl)
      (fun st h => crawlStep_found_shape cfg (get_domain cfg.start_url) st h)

/-- The overlapping-occurrence text on which the extractor misses a code. -/
def exOverlap : Str := "https://chat.whatsapp.com/https://chat.whatsapp.com/ABC".toList

/-- C6 (counterexample): in `exOverlap` the code `ABC` follows an occurrence
of `https://chat.whatsapp.com/` (beginning inside the first match), yet the
extractor, scanning left to right without overlap, does not return it — so
the extractor does not return exactly the set of codes following every
occurrence of the pattern. -/
theorem claim_C6_counterexample :
    "ABC".toList ∈ specInviteCodes exOverlap ∧
    "ABC".toList ∉ find_whatsapp_links exOverlap := by
  constructor <;> decide

/-- C6 (witness): on a simple page the extractor returns the code
`ABC123xyz`, which indeed follows an occurrence of the pattern, and the
crawl result contains exactly its reconstruction. -/
theorem claim_C6_witness :
    ("ABC123xyz".toList ∈
        find_whatsapp_links "Join: https://chat.whatsapp.com/ABC123xyz now".toList ∧
      "ABC123xyz".toList ∈
        specInviteCodes "Join: https://chat.whatsapp.com/ABC123xyz now".toList ∧
      "ABC123xyz".toList ≠ [] ∧ "ABC123xyz".toList.all isInviteChar = true) ∧
    (waReconstruct "ABC123xyz".toList ∈ (crawl_website exCfgDepth0 5).found ∧
      ∃ code, code ≠ [] ∧ code.all isInviteChar = true ∧
        waReconstruct "ABC123xyz".toList = waReconstruct code) :=
  ⟨⟨by decide,
    claim_C6_amended_extractor_sound.1 _ "ABC123xyz".toList (by decide)⟩,
   ⟨by decide,
    claim_C6_amended_extractor_sound.2 exCfgDepth0 5 (waReconstruct "ABC123xyz".toList)
      (by decide)⟩⟩
